import Mathlib

/-!
Verification development for the `culling` photo-deduplication tool.

The definitions below are shallow embeddings of the Rust sources:

* `src/src/main.rs` — the CLI (`cullrs`): perceptual-hash grouping
  (`find_duplicates`, `hamming_distance`), keeper selection
  (`sort_group_by_strategy`, `get_timestamp`), the cull workflow
  (`handle_duplicates_command`, `get_unique_destination`) and the history
  log (`handle_history_command`).
* `src/src-tauri/src/core/hash.rs` — `HashService::compute_content_hash`.
* `src/src-tauri/src/services/database.rs` — `find_exact_duplicates`.
* `src/src-tauri/src/core/scanner.rs` — `ScannerService::scan_paths`,
  `create_minimal_asset`.

Machine integers are modelled as `Nat`/`Int` with explicit wrapping where
the Rust code can overflow.  File-system state is passed explicitly as an
association list from paths to file identities.  Fallible operations
return `Option`/`Except`-like shapes.
-/

namespace Culling

/-! ## Perceptual-hash distance and near-duplicate grouping (main.rs) -/

/-- Embedding of `hamming_distance(hash1: u64, hash2: u64) -> u32`:
`(hash1 ^ hash2).count_ones()`.  The hashes are 64-bit values (built in
`find_duplicates` by folding 8 hash bytes into a `u64`), so counting the
set bits of the xor below position 64 is exact. -/
def hamming_distance (hash1 hash2 : Nat) : Nat :=
  (List.range 64).countP (fun i => (Nat.xor hash1 hash2).testBit i)

/-- One entry handed to the grouping loop of `find_duplicates`: a 64-bit
perceptual hash paired with the image path (paths are modelled by opaque
numeric identities). -/
abbrev HashEntry := Nat × Nat

/-- Embedding of the grouping loop of `find_duplicates` (main.rs lines
673–701).  The imperative loop iterates `i` over the entries; an entry
already `used` is skipped, otherwise it seeds a new group and absorbs every
later not-yet-used entry whose hash is within `threshold` (inclusive) of
the seed's hash, and the group is emitted only if it has more than one
member.  Functionally: the first unused entry is the head of the remaining
list, the absorbed entries are exactly the remaining entries within the
threshold of the seed, and the entries left for later iterations are the
remaining entries beyond the threshold, in order.  The `fuel` argument
(instantiated with the list length) only makes the recursion structural. -/
def groupHashesAux (threshold : Nat) : Nat → List HashEntry → List (List Nat)
  | 0, _ => []
  | _ + 1, [] => []
  | fuel + 1, (h, p) :: rest =>
      let near := rest.filter (fun e => hamming_distance h e.1 ≤ threshold)
      let far := rest.filter (fun e => ¬ hamming_distance h e.1 ≤ threshold)
      let group := p :: near.map (fun e => e.2)
      if group.length > 1 then group :: groupHashesAux threshold fuel far
      else groupHashesAux threshold fuel far

/-- The grouping pass of `find_duplicates`: group the hashed entries with
the configured Hamming-distance threshold. -/
def find_duplicates_groups (hashes : List HashEntry) (threshold : Nat) :
    List (List Nat) :=
  groupHashesAux threshold hashes.length hashes

/-! ## Keeper selection (main.rs `sort_group_by_strategy`, `get_timestamp`) -/

/-- The `SelectionStrategy` enum of main.rs. -/
inductive SelectionStrategy
  | Oldest
  | Newest
  | Largest
  | Smallest
deriving DecidableEq, Repr

/-- Embedding of `get_timestamp`: `fs::metadata(path).and_then(|m| m.created())
.unwrap_or(SystemTime::UNIX_EPOCH)`.  The file-system metadata query is
modelled by `ct : α → Option Nat` (creation time in seconds since the Unix
epoch, `none` when metadata or creation time is unavailable), so the fallback
to the epoch is `getD 0`. -/
def get_timestamp {α : Type} (ct : α → Option Nat) (p : α) : Nat :=
  (ct p).getD 0

/-- Stable insertion of `x` into a list sorted by the key `k`: `x` goes
after every element whose key is ≤ its own.  Building block of
`stableSortByKey`. -/
def insertSorted {α β : Type} [LinearOrder β] (k : α → β) (x : α) :
    List α → List α
  | [] => [x]
  | y :: ys => if k y ≤ k x then y :: insertSorted k x ys else x :: y :: ys

/-- Model of Rust `slice::sort_by_key`, which is a stable sort by the key in
ascending order.  A stable sort by a key is extensionally unique (the output
is the unique sorted permutation in which elements with equal keys keep
their relative input order), so stable insertion sort is an exact model. -/
def stableSortByKey {α β : Type} [LinearOrder β] (k : α → β)
    (l : List α) : List α :=
  l.foldl (fun acc x => insertSorted k x acc) []

/-- Largest representable u64 value, the `unwrap_or(u64::MAX)` fallback used
by the `Smallest` strategy when file metadata cannot be read. -/
def u64MAX : Nat := 2 ^ 64 - 1

/-- Embedding of `sort_group_by_strategy` (main.rs lines 708–723).
`ct` models `fs::metadata(p).and_then(created)` and `sz` models
`fs::metadata(p).map(|m| m.len())` (`none` = metadata read failure).
`Oldest` sorts ascending by creation time (epoch fallback), `Newest` by the
reversed order on the same key (`std::cmp::Reverse` is modelled by
`OrderDual`), `Largest` by reversed size with fallback 0, `Smallest` by
size ascending with fallback `u64::MAX`. -/
def sort_group_by_strategy {α : Type} (ct sz : α → Option Nat)
    (strategy : SelectionStrategy) (group : List α) : List α :=
  match strategy with
  | .Oldest => stableSortByKey (fun p => get_timestamp ct p) group
  | .Newest =>
      stableSortByKey (fun p => OrderDual.toDual (get_timestamp ct p)) group
  | .Largest =>
      stableSortByKey (fun p => OrderDual.toDual ((sz p).getD 0)) group
  | .Smallest => stableSortByKey (fun p => (sz p).getD u64MAX) group

/-- The sort key (as a plain natural number) that each strategy compares
entries by; used to state stability. -/
def strategyKey {α : Type} (ct sz : α → Option Nat) :
    SelectionStrategy → α → Nat
  | .Oldest => fun p => get_timestamp ct p
  | .Newest => fun p => get_timestamp ct p
  | .Largest => fun p => (sz p).getD 0
  | .Smallest => fun p => (sz p).getD u64MAX

/-- The property required of the suggested keeper `a` relative to any group
member `x`: minimal creation time for `Oldest`, maximal for `Newest`,
maximal size key for `Largest`, minimal for `Smallest`. -/
def strategyFavors {α : Type} (ct sz : α → Option Nat)
    (strategy : SelectionStrategy) (a x : α) : Prop :=
  match strategy with
  | .Oldest => get_timestamp ct a ≤ get_timestamp ct x
  | .Newest => get_timestamp ct x ≤ get_timestamp ct a
  | .Largest => (sz x).getD 0 ≤ (sz a).getD 0
  | .Smallest => (sz a).getD u64MAX ≤ (sz x).getD u64MAX

/-! ## Content hashing (core/hash.rs `compute_content_hash`) -/

/-- Model of the incremental interface of the `sha2` crate used by
`compute_content_hash`: `Digest::update` absorbs a block of bytes, and the
final digest is a function of the full absorbed byte sequence.  The state
is the absorbed sequence itself; the compression function is applied by the
abstract digest function at finalization. -/
def sha256Update (absorbed chunk : List Nat) : List Nat := absorbed ++ chunk

/-- Embedding of `HashService::compute_content_hash` (core/hash.rs lines
26–42): the read loop feeds the file to the hasher in blocks (at most 8192
bytes each, ending when a read returns 0 bytes), then finalizes and
hex-formats.  `digestOf` abstracts the SHA-256 compression plus hex
formatting (external `sha2` crate); `chunks` is the block sequence the
reads produced. -/
def compute_content_hash (digestOf : List Nat → String)
    (chunks : List (List Nat)) : String :=
  digestOf (chunks.foldl sha256Update [])

/-! ## Catalog entry creation (core/scanner.rs) and the size cast -/

/-- Semantics of the Rust `as` cast from `u64` to `i32` (used in
`create_minimal_asset`: `metadata.len() as i32`): keep the low 32 bits and
reinterpret them as two's-complement. -/
def u64_as_i32 (n : Nat) : Int :=
  if n % 2 ^ 32 < 2 ^ 31 then ((n % 2 ^ 32 : Nat) : Int)
  else ((n % 2 ^ 32 : Nat) : Int) - 2 ^ 32

/-- The `Asset` record of database/models.rs (sizes and dimensions are
`i32`, modelled as `Int`; the cast guarantees the stored values fit). -/
structure Asset where
  id : String
  project_id : String
  path : String
  thumbnail_path : Option String
  hash : Option String
  perceptual_hash : Option String
  size : Int
  width : Int
  height : Int
  exif_data : Option String
  created_at : String
  updated_at : String
deriving DecidableEq, Repr

/-- Embedding of `ScannerService::create_minimal_asset` (core/scanner.rs
lines 274–297).  The generated `ast_<uuid>` identity and the RFC 3339
timestamp come from external sources (`uuid`, `chrono`) and are passed in;
`len` is `fs::metadata(file_path)?.len()`. -/
def create_minimal_asset (asset_id proj path now : String) (len : Nat) :
    Asset :=
  { id := asset_id, project_id := proj, path := path,
    thumbnail_path := none, hash := none, perceptual_hash := none,
    size := u64_as_i32 len, width := 0, height := 0, exif_data := none,
    created_at := now, updated_at := now }

/-- The `ScanError` enum of core/scanner.rs (error payloads reduced to
their message strings). -/
inductive ScanError
  | InvalidPath (path : String)
  | PermissionDenied (path : String)
  | UnsupportedFileType (extension : String)
  | Io (msg : String)
  | Image (msg : String)
  | Thumbnail (msg : String)
  | Hash (msg : String)
  | Exif (msg : String)
  | Cancelled
deriving DecidableEq, Repr

/-- Embedding of the control flow of `ScannerService::scan_paths`
(core/scanner.rs lines 117–217).  The shared `AtomicBool` cancellation
token is modelled by its value at the start of the call (`cancelled`), the
per-root existence/directory validation by `pathsValid`, the external
directory walker by the `discovered` list of (path, size) pairs, and asset
construction by `mkAsset`.  The pair's second component counts the files
processed (catalog entries created).  The very first statement of
`scan_paths` returns `Err(ScanError::Cancelled)` when the token is already
set, before validation, discovery or indexing run. -/
def scan_paths (cancelled : Bool) (pathsValid : Bool)
    (discovered : List (String × Nat))
    (mkAsset : String → Nat → Asset) : Except ScanError (List Asset) × Nat :=
  if cancelled then (Except.error ScanError.Cancelled, 0)
  else if pathsValid = false then (Except.error (ScanError.InvalidPath ""), 0)
  else (Except.ok (discovered.map (fun d => mkAsset d.1 d.2)),
        discovered.length)

/-! ## Exact duplicate grouping (services/database.rs
`find_exact_duplicates`) -/

/-- The `DuplicateType` enum of services/database.rs. -/
inductive DuplicateType
  | Exact
  | NearDuplicate
  | Crop
  | Rotation
deriving DecidableEq, Repr

/-- The `DuplicateGroup` record of services/database.rs.  Member files are
identified by their row ids (`get_files_by_ids` resolves them to full
records); the fresh `group_id` UUID is external randomness and omitted.
The `f64` score only ever holds the constant 1.0 here, modelled in `ℚ`. -/
structure DuplicateGroup where
  duplicate_type : DuplicateType
  files : List Nat
  similarity_score : Option ℚ
deriving DecidableEq, Repr

/-- Embedding of `find_exact_duplicates` (services/database.rs lines
199–232).  The SQL `SELECT file_hash, GROUP_CONCAT(id) … WHERE file_hash IS
NOT NULL GROUP BY file_hash HAVING COUNT(*) > 1` buckets the non-null
hashes (`rows` is the `scanned_files` table as (id, file_hash) pairs,
buckets enumerated in first-occurrence order); each id list with more than
one member becomes an `Exact` group with similarity score 1.0. -/
def find_exact_duplicates (rows : List (Nat × Option String)) :
    List DuplicateGroup :=
  ((rows.filterMap Prod.snd).dedup).filterMap (fun h =>
    let file_ids := rows.filterMap
      (fun r => if r.2 = some h then some r.1 else none)
    if file_ids.length > 1 then
      some { duplicate_type := DuplicateType.Exact, files := file_ids,
             similarity_score := some 1 }
    else none)

/-! ## Cull workflow and history ledger (main.rs
`handle_duplicates_command`, `handle_history_command`,
`get_unique_destination`) -/

/-- File-system paths, modelled as their component lists (`Path::join`
appends a component). -/
abbrev RPath := List String

/-- Model of `Path::file_name().unwrap_or_default()`: the last component,
or the empty name when there is none. -/
def fileName (p : RPath) : String := p.getLast?.getD ""

/-- Model of Rust `Path::file_stem` / `Path::extension` on a file name:
split at the last dot, except that a dot that is the leading character
starts no extension (so ".hidden" has no extension). -/
def splitStemExt (name : String) : String × Option String :=
  let r := name.toList.reverse
  match r.findIdx? (fun c => c = '.') with
  | none => (name, none)
  | some k =>
      let stem := (r.drop (k + 1)).reverse
      if stem = [] then (name, none)
      else (String.mk stem, some (String.mk ((r.take k).reverse)))

/-- The file system, modelled as an association list from paths to opaque
file identities. -/
abbrev FS := List (RPath × Nat)

/-- The file (if any) stored at a path. -/
def fsLookup : FS → RPath → Option Nat
  | [], _ => none
  | (q, v) :: rest, p => if q = p then some v else fsLookup rest p

/-- Model of `Path::exists`. -/
def fsExists (fs : FS) (p : RPath) : Bool := (fsLookup fs p).isSome

/-- Model of `fs::remove_file`. -/
def fsRemove (fs : FS) (p : RPath) : FS := fs.filter (fun e => ¬ e.1 = p)

/-- Model of a successful `fs::rename`: the file leaves `src` and appears
at `dst`. -/
def fsRename (fs : FS) (src dst : RPath) : FS :=
  match fsLookup fs src with
  | none => fs
  | some v => (dst, v) :: fsRemove fs src

/-- Embedding of `get_unique_destination` (main.rs lines 725–751): the
plain `target_dir/file_name` if free, otherwise the first free
`stem_counter.ext` for counters 1..9999, and failure (`anyhow::bail`) when
all 9999 are taken.  `ex` is the `dest.exists()` query against the current
file system. -/
def get_unique_destination (ex : RPath → Bool) (target_dir source : RPath) :
    Option RPath :=
  let file_name := fileName source
  let dest := target_dir ++ [file_name]
  if ex dest = false then some dest
  else
    let se := splitStemExt file_name
    let ext := match se.2 with
      | some e => "." ++ e
      | none => ""
    ((List.range 9999).map (fun c => c + 1)).findSome? (fun c =>
      let d := target_dir ++ [se.1 ++ "_" ++ toString c ++ ext]
      if ex d = false then some d else none)

/-- The `CullHistoryRecord` of main.rs.  Rust serializes the paths through
`to_string_lossy` and reparses them with `Path::new`; that round-trip is
the identity on this path model, so the record holds paths directly. -/
structure CullHistoryRecord where
  timestamp : String
  retained : RPath
  culled : List RPath
  action : String
deriving DecidableEq, Repr

/-- The per-duplicate loop of the `Cull` (move) branch of
`handle_duplicates_command` (main.rs lines 325–339): for each non-keeper
file pick a unique destination and rename it into the target directory.
`renameOk` models whether the OS-level `fs::rename` succeeds; a failed
rename (or destination exhaustion) propagates out through `?`, so the loop
stops there.  Returns the file system, the files actually renamed (in
order), and the error if one occurred. -/
def cull_move_dups (renameOk : RPath → RPath → Bool) (target_dir : RPath) :
    FS → List RPath → FS × List RPath × Option String
  | fs, [] => (fs, [], none)
  | fs, dup :: rest =>
    match get_unique_destination (fsExists fs) target_dir dup with
    | none => (fs, [],
        some "Too many files with similar names in target directory")
    | some dest =>
      if renameOk dup dest then
        let next :=
          cull_move_dups renameOk target_dir (fsRename fs dup dest) rest
        (next.1, dup :: next.2.1, next.2.2)
      else (fs, [], some "Failed to move")

/-- Outcome of processing one group during a cull: the file system, the
files actually moved or deleted, the history record written for the group
(if any), and the propagated error (if any). -/
structure GroupCullResult where
  fs : FS
  moved : List RPath
  record : Option CullHistoryRecord
  err : Option String
deriving DecidableEq, Repr

/-- Processing of one sorted group in the move branch (main.rs lines
319–349): the first entry is kept, the rest are moved, and on success one
record (action "moved", listing the retained path and all culled paths) is
written; an error aborts before the record is written.  An empty group
would panic on `group[0]` in Rust (groups always have at least two
members); it is modelled as an error. -/
def cull_move_group (ts : String) (renameOk : RPath → RPath → Bool)
    (target_dir : RPath) (fs : FS) (group : List RPath) : GroupCullResult :=
  match group with
  | [] => ⟨fs, [], none, some "empty group"⟩
  | keeper :: dups =>
    let r := cull_move_dups renameOk target_dir fs dups
    match r.2.2 with
    | some e => ⟨r.1, r.2.1, none, some e⟩
    | none => ⟨r.1, r.2.1, some ⟨ts, keeper, dups, "moved"⟩, none⟩

/-- The group loop of the move branch: groups are processed in order, one
record appended per successfully processed group; an error aborts the
whole command (the records of groups already completed remain written). -/
def handle_cull_move (ts : String) (renameOk : RPath → RPath → Bool)
    (target_dir : RPath) :
    FS → List (List RPath) → FS × List CullHistoryRecord × Option String
  | fs, [] => (fs, [], none)
  | fs, g :: gs =>
    let r := cull_move_group ts renameOk target_dir fs g
    match r.err with
    | some e => (r.fs, r.record.toList, some e)
    | none =>
      let rest := handle_cull_move ts renameOk target_dir r.fs gs
      (rest.1, r.record.toList ++ rest.2.1, rest.2.2)

/-- The `Cull` command with its `dry_run` flag: a dry run opens no history
file, writes no records and touches no files (main.rs lines 299–317 and
326–332). -/
def handle_cull_cmd (dry_run : Bool) (ts : String)
    (renameOk : RPath → RPath → Bool) (target_dir : RPath) (fs : FS)
    (groups : List (List RPath)) :
    FS × List CullHistoryRecord × Option String :=
  if dry_run then (fs, [], none)
  else handle_cull_move ts renameOk target_dir fs groups

/-- The per-duplicate loop of the `Delete` branch (main.rs lines 403–408):
`fs::remove_file` per non-keeper file, `?`-propagation on failure.
`deleteOk` models whether the OS-level deletion succeeds. -/
def cull_delete_dups (deleteOk : RPath → Bool) :
    FS → List RPath → FS × List RPath × Option String
  | fs, [] => (fs, [], none)
  | fs, dup :: rest =>
    if deleteOk dup then
      let next := cull_delete_dups deleteOk (fsRemove fs dup) rest
      (next.1, dup :: next.2.1, next.2.2)
    else (fs, [], some "Failed to delete")

/-- Processing of one sorted group in the delete branch (main.rs lines
397–417): like the move branch but with permanent deletion and action
"deleted". -/
def cull_delete_group (ts : String) (deleteOk : RPath → Bool) (fs : FS)
    (group : List RPath) : GroupCullResult :=
  match group with
  | [] => ⟨fs, [], none, some "empty group"⟩
  | keeper :: dups =>
    let r := cull_delete_dups deleteOk fs dups
    match r.2.2 with
    | some e => ⟨r.1, r.2.1, none, some e⟩
    | none => ⟨r.1, r.2.1, some ⟨ts, keeper, dups, "deleted"⟩, none⟩

/-- The group loop of the delete branch. -/
def handle_cull_delete (ts : String) (deleteOk : RPath → Bool) :
    FS → List (List RPath) → FS × List CullHistoryRecord × Option String
  | fs, [] => (fs, [], none)
  | fs, g :: gs =>
    let r := cull_delete_group ts deleteOk fs g
    match r.err with
    | some e => (r.fs, r.record.toList, some e)
    | none =>
      let rest := handle_cull_delete ts deleteOk r.fs gs
      (rest.1, r.record.toList ++ rest.2.1, rest.2.2)

/-- Whether a log line parses (via serde, abstracted by `parse`) as a
record with action "moved". -/
def parses_moved {α : Type} (parse : α → Option CullHistoryRecord)
    (line : α) : Bool :=
  match parse line with
  | some rec => rec.action = "moved"
  | none => false

/-- The `stored` vector built by the `Restore` branch of
`handle_history_command` (main.rs lines 455–463): the lines that parse as
records with action "moved", each paired with its original line. -/
def restore_stored {α : Type} (parse : α → Option CullHistoryRecord)
    (lines : List α) : List (CullHistoryRecord × α) :=
  lines.filterMap (fun line => match parse line with
    | some rec => if rec.action = "moved" then some (rec, line) else none
    | none => none)

/-- The `restore_indices` computation (main.rs lines 469–481): all stored
indices under `--all`, otherwise the requested index (default: the last
stored record), failing when it is out of range. -/
def restore_targets (n : Nat) (record : Option Nat) (all : Bool) :
    Option (List Nat) :=
  if all then some (List.range n)
  else
    let idx := record.getD (n - 1)
    if n ≤ idx then none else some [idx]

/-- The history-file rewrite performed by `Restore` (main.rs lines
455–521): the file is rewritten from `stored` (the parsed "moved" lines
only) minus the targeted indices; `none` models the `bail` cases (no
"moved" record, or index out of range). -/
def restore_rewrite {α : Type} (parse : α → Option CullHistoryRecord)
    (lines : List α) (record : Option Nat) (all : Bool) : Option (List α) :=
  let stored := restore_stored parse lines
  if stored.length = 0 then none
  else match restore_targets stored.length record all with
  | none => none
  | some targets =>
      some ((stored.enum.filter
        (fun p => ¬ targets.contains p.1)).map (fun p => p.2.2))

/-- The file-restoring loop for one targeted record (main.rs lines
483–506): for each culled path the source is looked up under the
hard-coded `base/duplicates` directory by the file's base name; a missing
source or a source equal to its destination is skipped with a warning,
otherwise the file is renamed back to the recorded original path. -/
def restore_record_files (base : RPath) (fs : FS) (culled : List RPath) :
    FS :=
  culled.foldl (fun fs orig =>
    let src := base ++ ["duplicates", fileName orig]
    if fsExists fs src = false then fs
    else if src = orig then fs
    else fsRename fs src orig) fs

/-- A concrete three-line history log used in witnesses and
counterexamples: line 0 a "moved" record, line 1 a "deleted" record, line
2 another "moved" record. -/
def demoParse : Nat → Option CullHistoryRecord := fun n =>
  if n = 0 then some ⟨"t0", ["d", "k0.jpg"], [["d", "a.jpg"]], "moved"⟩
  else if n = 1 then some ⟨"t1", ["d", "k1.jpg"], [["d", "b.jpg"]], "deleted"⟩
  else if n = 2 then some ⟨"t2", ["d", "k2.jpg"], [["d", "c.jpg"]], "moved"⟩
  else none

theorem hamming_distance_comm (a b : Nat) :
    hamming_distance a b = hamming_distance b a := by
  have h : Nat.xor a b = Nat.xor b a := Nat.xor_comm a b
  simp [hamming_distance, h]

theorem hamming_distance_self (a : Nat) : hamming_distance a a = 0 := by
  have h : Nat.xor a a = 0 := Nat.xor_self a
  simp [hamming_distance, h, Nat.zero_testBit]

theorem groupHashesAux_seed (t : Nat) :
    ∀ fuel l, ∀ g ∈ groupHashesAux t fuel l,
      ∃ s ∈ l, ∀ p ∈ g, ∃ e ∈ l, e.2 = p ∧ hamming_distance s.1 e.1 ≤ t := by
  intro fuel
  induction fuel with
  | zero => intro l g hg; simp [groupHashesAux] at hg
  | succ fuel ih =>
    intro l g hg
    match l with
    | [] => simp [groupHashesAux] at hg
    | (h, p) :: rest =>
      simp only [groupHashesAux] at hg
      set near := rest.filter (fun e => hamming_distance h e.1 ≤ t) with hnear
      set far := rest.filter (fun e => ¬ hamming_distance h e.1 ≤ t) with hfar
      by_cases hlen : (p :: near.map (fun e => e.2)).length > 1
      · rw [if_pos hlen] at hg
        rcases List.mem_cons.mp hg with hgh | hgt
        · subst hgh
          refine ⟨(h, p), List.mem_cons_self _ _, ?_⟩
          intro q hq
          rcases List.mem_cons.mp hq with hq | hq
          · exact ⟨(h, p), List.mem_cons_self _ _, hq.symm,
              by simp [hamming_distance_self]⟩
          · rcases List.mem_map.mp hq with ⟨e, he, hfq⟩
            have hmem := List.mem_filter.mp (hnear ▸ he)
            exact ⟨e, List.mem_cons_of_mem _ hmem.1, hfq,
              by simpa using hmem.2⟩
        · rcases ih far g hgt with ⟨s, hs, hall⟩
          have hsub : s ∈ rest := List.mem_of_mem_filter (hfar ▸ hs)
          refine ⟨s, List.mem_cons_of_mem _ hsub, ?_⟩
          intro q hq
          rcases hall q hq with ⟨e, he, h1, h2⟩
          exact ⟨e, List.mem_cons_of_mem _ (List.mem_of_mem_filter (hfar ▸ he)), h1, h2⟩
      · rw [if_neg hlen] at hg
        rcases ih far g hg with ⟨s, hs, hall⟩
        have hsub : s ∈ rest := List.mem_of_mem_filter (hfar ▸ hs)
        refine ⟨s, List.mem_cons_of_mem _ hsub, ?_⟩
        intro q hq
        rcases hall q hq with ⟨e, he, h1, h2⟩
        exact ⟨e, List.mem_cons_of_mem _ (List.mem_of_mem_filter (hfar ▸ he)), h1, h2⟩
theorem find_duplicates_head_absorbs (t : Nat) (e0 e : HashEntry)
    (rest : List HashEntry) (he : e ∈ rest)
    (hd : hamming_distance e0.1 e.1 ≤ t) :
    ∃ g ∈ find_duplicates_groups (e0 :: rest) t, e0.2 ∈ g ∧ e.2 ∈ g := by
  obtain ⟨h, p⟩ := e0
  simp only [find_duplicates_groups, List.length_cons, groupHashesAux]
  set near := rest.filter (fun x => hamming_distance h x.1 ≤ t) with hnear
  have hene : e ∈ near := List.mem_filter.mpr ⟨he, by simpa using hd⟩
  have hpos : 0 < near.length := List.length_pos.mpr (List.ne_nil_of_mem hene)
  rw [if_pos (by simp only [List.length_cons, List.length_map]; omega)]
  exact ⟨p :: near.map (fun x => x.2), List.mem_cons_self _ _,
    List.mem_cons_self _ _,
    List.mem_cons_of_mem _ (List.mem_map.mpr ⟨e, hene, rfl⟩)⟩

theorem find_duplicates_chain (t : Nat) (l : List HashEntry) (x y : HashEntry)
    (g : List Nat) (hnd : (l.map Prod.snd).Nodup)
    (hg : g ∈ find_duplicates_groups l t) (hx : x ∈ l) (hy : y ∈ l)
    (hxg : x.2 ∈ g) (hyg : y.2 ∈ g) :
    hamming_distance x.1 y.1 ≤ t ∨
      ∃ z ∈ l, z.2 ≠ x.2 ∧ z.2 ≠ y.2 ∧
        hamming_distance x.1 z.1 ≤ t ∧ hamming_distance z.1 y.1 ≤ t := by
  obtain ⟨s, hs, hall⟩ := groupHashesAux_seed t l.length l g hg
  obtain ⟨ex, hex, hex2, hdx⟩ := hall x.2 hxg
  obtain ⟨ey, hey, hey2, hdy⟩ := hall y.2 hyg
  have hinj := List.inj_on_of_nodup_map hnd
  have hexx : ex = x := hinj hex hx hex2
  have heyy : ey = y := hinj hey hy hey2
  rw [hexx] at hdx
  rw [heyy] at hdy
  by_cases hsx : s.2 = x.2
  · have hsx2 : s = x := hinj hs hx hsx
    exact Or.inl (by rw [← hsx2]; exact hdy)
  · by_cases hsy : s.2 = y.2
    · have hsy2 : s = y := hinj hs hy hsy
      refine Or.inl ?_
      rw [← hsy2, hamming_distance_comm]
      exact hdx
    · exact Or.inr ⟨s, hs, hsx, hsy,
        by rw [hamming_distance_comm]; exact hdx, hdy⟩

/-- C1 (corrected).  The claim as stated is false: with the greedy
single-link pass an entry can be absorbed by an earlier seed's group and is
then unavailable when a later entry within the threshold is scanned (see
the counterexample).  What holds is: (1) an entry whose hash is within the
threshold of the first entry's hash always lands in the first entry's
group, and (2) two entries in different groups are never directly within
the threshold, nor chained through a third entry — equivalently, any two
members of one group are within the threshold of each other or chained
through the group's seed. -/
theorem C1_near_grouping :
    (∀ t (e0 e : HashEntry) rest, e ∈ rest →
        hamming_distance e0.1 e.1 ≤ t →
        ∃ g ∈ find_duplicates_groups (e0 :: rest) t, e0.2 ∈ g ∧ e.2 ∈ g) ∧
    (∀ t l (x y : HashEntry) g, (List.map Prod.snd l).Nodup →
        g ∈ find_duplicates_groups l t → x ∈ l → y ∈ l →
        x.2 ∈ g → y.2 ∈ g →
        hamming_distance x.1 y.1 ≤ t ∨
          ∃ z ∈ l, z.2 ≠ x.2 ∧ z.2 ≠ y.2 ∧
            hamming_distance x.1 z.1 ≤ t ∧ hamming_distance z.1 y.1 ≤ t) :=
  ⟨fun t e0 e rest he hd => find_duplicates_head_absorbs t e0 e rest he hd,
   fun t l x y g hnd hg hx hy hxg hyg =>
     find_duplicates_chain t l x y g hnd hg hx hy hxg hyg⟩

/-- C1 witness: on the two-entry input `[(0, 10), (1, 11)]` with threshold
1 the two entries (Hamming distance 1) share a group. -/
theorem C1_near_grouping_witness :
    ∃ g ∈ find_duplicates_groups [(0, 10), (1, 11)] 1, 10 ∈ g ∧ 11 ∈ g :=
  C1_near_grouping.1 1 (0, 10) (1, 11) [(1, 11)] (by decide) (by decide)

/-- C1 counterexample: entries with hashes 0, 3, 1 and threshold 1.  The
entries with hashes 3 and 1 are at Hamming distance 1 ≤ 1, yet the pass
groups the hash-1 entry with the first seed (hash 0) and the hash-3 entry
ends up in no group at all — refuting the claim that any two entries
within the threshold share a group. -/
theorem C1_near_grouping_counterexample :
    hamming_distance 3 1 ≤ 1 ∧
      ¬ ∃ g ∈ find_duplicates_groups [(0, 10), (3, 11), (1, 12)] 1,
          11 ∈ g ∧ 12 ∈ g := by decide

theorem insertSorted_perm {α β : Type} [LinearOrder β] (k : α → β) (x : α)
    (l : List α) : (insertSorted k x l).Perm (x :: l) := by
  induction l with
  | nil => simp [insertSorted]
  | cons y ys ih =>
    simp only [insertSorted]
    by_cases h : k y ≤ k x
    · rw [if_pos h]
      exact ((ih.cons y).trans (List.Perm.swap x y ys))
    · rw [if_neg h]

theorem insertSorted_sorted {α β : Type} [LinearOrder β] (k : α → β) (x : α)
    (l : List α) (hl : List.Sorted (fun a b => k a ≤ k b) l) :
    List.Sorted (fun a b => k a ≤ k b) (insertSorted k x l) := by
  induction l with
  | nil => simp [insertSorted]
  | cons y ys ih =>
    rw [List.sorted_cons] at hl
    simp only [insertSorted]
    by_cases h : k y ≤ k x
    · rw [if_pos h]
      rw [List.sorted_cons]
      refine ⟨?_, ih hl.2⟩
      intro b hb
      have := (insertSorted_perm k x ys).mem_iff.mp hb
      rcases List.mem_cons.mp this with hb | hb
      · subst hb; exact h
      · exact hl.1 b hb
    · rw [if_neg h]
      rw [List.sorted_cons]
      refine ⟨?_, List.sorted_cons.mpr hl⟩
      intro b hb
      rcases List.mem_cons.mp hb with hb | hb
      · subst hb; exact le_of_not_le h
      · exact le_trans (le_of_not_le h) (hl.1 b hb)

theorem insertSorted_filter {α β : Type} [LinearOrder β] (k : α → β) (x : α)
    (v : β) (l : List α) (hl : List.Sorted (fun a b => k a ≤ k b) l) :
    (insertSorted k x l).filter (fun z => k z = v) =
      if k x = v then l.filter (fun z => k z = v) ++ [x]
      else l.filter (fun z => k z = v) := by
  induction l with
  | nil =>
    by_cases hx : k x = v <;> simp [insertSorted, hx]
  | cons y ys ih =>
    rw [List.sorted_cons] at hl
    simp only [insertSorted]
    by_cases h : k y ≤ k x
    · rw [if_pos h]
      by_cases hy : k y = v
      · rw [List.filter_cons_of_pos (by simp [hy]), ih hl.2,
            List.filter_cons_of_pos (by simp [hy])]
        by_cases hx : k x = v <;> simp [hx]
      · rw [List.filter_cons_of_neg (by simp [hy]), ih hl.2,
            List.filter_cons_of_neg (by simp [hy])]
    · rw [if_neg h]
      have hlt : k x < k y := lt_of_not_le h
      by_cases hx : k x = v
      · have hemp : (y :: ys).filter (fun z => k z = v) = [] := by
          apply List.filter_eq_nil_iff.mpr
          intro z hz
          have hzy : k y ≤ k z := by
            rcases List.mem_cons.mp hz with hz | hz
            · subst hz; exact le_refl _
            · exact hl.1 z hz
          have hvz : v < k z := lt_of_lt_of_le (hx ▸ hlt) hzy
          have hne : k z ≠ v := Ne.symm (ne_of_lt hvz)
          simp [hne]
        rw [if_pos hx, List.filter_cons_of_pos (by simp [hx]), hemp]
        simp
      · rw [if_neg hx, List.filter_cons_of_neg (by simp [hx])]

theorem stableSortByKey_perm_aux {α β : Type} [LinearOrder β] (k : α → β) :
    ∀ (l acc : List α),
      (l.foldl (fun acc x => insertSorted k x acc) acc).Perm (acc ++ l) := by
  intro l
  induction l with
  | nil => intro acc; simp
  | cons x xs ih =>
    intro acc
    simp only [List.foldl_cons]
    refine (ih (insertSorted k x acc)).trans ?_
    have h1 : (insertSorted k x acc ++ xs).Perm ((x :: acc) ++ xs) :=
      (insertSorted_perm k x acc).append_right xs
    refine h1.trans ?_
    simpa using (@List.perm_middle _ x acc xs).symm

theorem stableSortByKey_perm {α β : Type} [LinearOrder β] (k : α → β)
    (l : List α) : (stableSortByKey k l).Perm l := by
  simpa using stableSortByKey_perm_aux k l []

theorem stableSortByKey_sorted_aux {α β : Type} [LinearOrder β] (k : α → β) :
    ∀ (l acc : List α), List.Sorted (fun a b => k a ≤ k b) acc →
      List.Sorted (fun a b => k a ≤ k b)
        (l.foldl (fun acc x => insertSorted k x acc) acc) := by
  intro l
  induction l with
  | nil => intro acc h; simpa using h
  | cons x xs ih =>
    intro acc h
    simp only [List.foldl_cons]
    exact ih _ (insertSorted_sorted k x acc h)

theorem stableSortByKey_sorted {α β : Type} [LinearOrder β] (k : α → β)
    (l : List α) :
    List.Sorted (fun a b => k a ≤ k b) (stableSortByKey k l) :=
  stableSortByKey_sorted_aux k l [] (by simp)

theorem stableSortByKey_filter_aux {α β : Type} [LinearOrder β] (k : α → β)
    (v : β) :
    ∀ (l acc : List α), List.Sorted (fun a b => k a ≤ k b) acc →
      (l.foldl (fun acc x => insertSorted k x acc) acc).filter
          (fun z => k z = v) =
        acc.filter (fun z => k z = v) ++ l.filter (fun z => k z = v) := by
  intro l
  induction l with
  | nil => intro acc h; simp
  | cons x xs ih =>
    intro acc h
    simp only [List.foldl_cons]
    rw [ih _ (insertSorted_sorted k x acc h), insertSorted_filter k x v acc h]
    by_cases hx : k x = v
    · rw [if_pos hx, List.filter_cons_of_pos (by simp [hx])]
      simp
    · rw [if_neg hx, List.filter_cons_of_neg (by simp [hx])]

theorem stableSortByKey_filter {α β : Type} [LinearOrder β] (k : α → β)
    (v : β) (l : List α) :
    (stableSortByKey k l).filter (fun z => k z = v) =
      l.filter (fun z => k z = v) :=
  by simpa using stableSortByKey_filter_aux k v l [] (by simp)

theorem stableSortByKey_head_min {α β : Type} [LinearOrder β] (k : α → β)
    (l : List α) (hne : l ≠ []) :
    ∃ a, (stableSortByKey k l).head? = some a ∧ a ∈ l ∧
      ∀ x ∈ l, k a ≤ k x := by
  have hperm := stableSortByKey_perm k l
  have hsne : stableSortByKey k l ≠ [] := by
    intro hnil
    apply hne
    have h2 : l.Perm [] := by rw [← hnil]; exact hperm.symm
    exact h2.eq_nil
  match hs : stableSortByKey k l with
  | [] => exact absurd hs hsne
  | a :: rest =>
    have ha : a ∈ stableSortByKey k l := by
      rw [hs]; exact List.mem_cons_self a rest
    refine ⟨a, by simp, hperm.mem_iff.mp ha, ?_⟩
    intro x hx
    have hxs : x ∈ a :: rest := by
      rw [← hs]; exact hperm.mem_iff.mpr hx
    have hsorted := stableSortByKey_sorted k l
    rw [hs, List.sorted_cons] at hsorted
    rcases List.mem_cons.mp hxs with hxa | hxr
    · subst hxa; exact le_refl _
    · exact hsorted.1 x hxr

theorem stableSortByKey_filter_dual {α : Type} (k : α → Nat) (v : Nat)
    (l : List α) :
    (stableSortByKey (fun p => OrderDual.toDual (k p)) l).filter
        (fun z => k z = v) =
      l.filter (fun z => k z = v) := by
  have h := stableSortByKey_filter
    (fun p => OrderDual.toDual (k p)) (OrderDual.toDual v) l
  have hc : ∀ (m : List α),
      m.filter (fun z => OrderDual.toDual (k z) = OrderDual.toDual v) =
        m.filter (fun z => k z = v) := by
    intro m
    apply List.filter_congr
    intro x _
    simp
  rw [hc, hc] at h
  exact h

theorem stableSortByKey_head_max {α : Type} (k : α → Nat) (l : List α)
    (hne : l ≠ []) :
    ∃ a, (stableSortByKey (fun p => OrderDual.toDual (k p)) l).head? =
        some a ∧ a ∈ l ∧ ∀ x ∈ l, k x ≤ k a := by
  obtain ⟨a, h1, h2, h3⟩ :=
    stableSortByKey_head_min (fun p => OrderDual.toDual (k p)) l hne
  exact ⟨a, h1, h2, fun x hx => h3 x hx⟩

/-- C6 (confirmed): for every group and strategy, `sort_group_by_strategy`
returns a permutation of the group; the sort is stable (entries with equal
strategy keys appear in the same relative order as in the input); and for a
non-empty group the first entry after sorting is a member with the
strategy's optimal key: least creation timestamp for `Oldest` (epoch
fallback), greatest for `Newest`, greatest byte-size key for `Largest`,
least for `Smallest`. -/
theorem C6_sort_group_by_strategy {α : Type} (ct sz : α → Option Nat)
    (strategy : SelectionStrategy) (group : List α) :
    (sort_group_by_strategy ct sz strategy group).Perm group ∧
    (∀ v : Nat,
      (sort_group_by_strategy ct sz strategy group).filter
          (fun x => strategyKey ct sz strategy x = v) =
        group.filter (fun x => strategyKey ct sz strategy x = v)) ∧
    (group ≠ [] →
      ∃ a, (sort_group_by_strategy ct sz strategy group).head? = some a ∧
        a ∈ group ∧ ∀ x ∈ group, strategyFavors ct sz strategy a x) := by
  cases strategy with
  | Oldest =>
    exact ⟨stableSortByKey_perm _ group,
      fun v => stableSortByKey_filter (fun p => get_timestamp ct p) v group,
      fun hne => stableSortByKey_head_min (fun p => get_timestamp ct p) group hne⟩
  | Newest =>
    exact ⟨stableSortByKey_perm _ group,
      fun v => stableSortByKey_filter_dual
        (fun p => get_timestamp ct p) v group,
      fun hne => stableSortByKey_head_max
        (fun p => get_timestamp ct p) group hne⟩
  | Largest =>
    exact ⟨stableSortByKey_perm _ group,
      fun v => stableSortByKey_filter_dual
        (fun p => (sz p).getD 0) v group,
      fun hne => stableSortByKey_head_max
        (fun p => (sz p).getD 0) group hne⟩
  | Smallest =>
    exact ⟨stableSortByKey_perm _ group,
      fun v => stableSortByKey_filter (fun p => (sz p).getD u64MAX) v group,
      fun hne => stableSortByKey_head_min (fun p => (sz p).getD u64MAX) group hne⟩


/-- C6 witness: a concrete two-element group with creation times 5 and 2;
under `Oldest` the head of the sorted group is entry 2 (timestamp 2), the
minimum. -/
theorem C6_sort_group_by_strategy_witness :
    ([1, 2] : List Nat) ≠ [] ∧
      ∃ a, (sort_group_by_strategy
            (fun p => if p = 1 then some 5 else some 2)
            (fun p => some p) SelectionStrategy.Oldest [1, 2]).head? = some a ∧
          a ∈ [1, 2] ∧ ∀ x ∈ [1, 2],
            strategyFavors (fun p => if p = 1 then some 5 else some 2)
              (fun p => some p) SelectionStrategy.Oldest a x :=
  ⟨by decide,
   (C6_sort_group_by_strategy (fun p => if p = 1 then some 5 else some 2)
     (fun p => some p) SelectionStrategy.Oldest [1, 2]).2.2 (by decide)⟩

theorem foldl_sha256Update (chunks : List (List Nat)) :
    ∀ acc, chunks.foldl sha256Update acc = acc ++ chunks.flatten := by
  induction chunks with
  | nil => intro acc; simp
  | cons c cs ih => intro acc; simp [sha256Update, ih]

/-- C7 (confirmed): `compute_content_hash` is a function of the file's
full byte content only — the digest equals the digest of the concatenation
of all read blocks regardless of how the reads partition the bytes — so two
byte-identical files get equal hex digests. -/
theorem C7_compute_content_hash :
    (∀ (digestOf : List Nat → String) (chunks : List (List Nat)),
        compute_content_hash digestOf chunks = digestOf chunks.flatten) ∧
    (∀ (digestOf : List Nat → String) (c1 c2 : List (List Nat)),
        c1.flatten = c2.flatten →
        compute_content_hash digestOf c1 = compute_content_hash digestOf c2) := by
  have h : ∀ (digestOf : List Nat → String) (chunks : List (List Nat)),
      compute_content_hash digestOf chunks = digestOf chunks.flatten := by
    intro digestOf chunks
    simp [compute_content_hash, foldl_sha256Update]
  exact ⟨h, fun digestOf c1 c2 hc => by rw [h, h, hc]⟩

/-- C7 witness: two different chunkings of the byte sequence [1, 2, 3]
yield the same digest. -/
theorem C7_witness :
    compute_content_hash (fun l => toString l) [[1, 2], [3]] =
      compute_content_hash (fun l => toString l) [[1], [2, 3]] :=
  C7_compute_content_hash.2 (fun l => toString l) [[1, 2], [3]] [[1], [2, 3]]
    (by rfl)

/-- C10 (confirmed): the byte size stored by `create_minimal_asset` is the
`u64 → i32` cast of the true file size: exact below 2^31 bytes, but for any
file of 2 GiB or more the stored value differs from the true size, and it
can be negative (e.g. at exactly 2^31 bytes). -/
theorem C10_asset_size_cast :
    (∀ (a p q now : String) (len : Nat), len < 2 ^ 31 →
        (create_minimal_asset a p q now len).size = len) ∧
    (∀ (a p q now : String) (len : Nat), 2 ^ 31 ≤ len →
        (create_minimal_asset a p q now len).size ≠ len) ∧
    (∃ len : Nat, 2 ^ 31 ≤ len ∧
        (create_minimal_asset "" "" "" "" len).size < 0) := by
  refine ⟨?_, ?_, ?_⟩
  · intro a p q now len hlen
    have hm : len % 2 ^ 32 = len := Nat.mod_eq_of_lt (by omega)
    simp only [create_minimal_asset, u64_as_i32, hm]
    rw [if_pos hlen]
  · intro a p q now len hlen
    simp only [create_minimal_asset, u64_as_i32]
    have hm : len % 2 ^ 32 < 2 ^ 32 := Nat.mod_lt _ (by norm_num)
    by_cases h : len % 2 ^ 32 < 2 ^ 31
    · rw [if_pos h]
      intro he
      have : (len : Int) % 2 ^ 32 = len % 2 ^ 32 := by push_cast; rfl
      omega
    · rw [if_neg h]
      intro he
      omega
  · refine ⟨2 ^ 31, le_refl _, ?_⟩
    simp only [create_minimal_asset, u64_as_i32]
    norm_num

/-- C10 witness: a 1000-byte file is stored exactly; a 2^31-byte file is
not. -/
theorem C10_asset_size_cast_witness :
    (create_minimal_asset "a" "p" "q" "t" 1000).size = 1000 ∧
      (create_minimal_asset "a" "p" "q" "t" (2 ^ 31)).size ≠ (2 ^ 31 : Int) :=
  ⟨C10_asset_size_cast.1 "a" "p" "q" "t" 1000 (by norm_num),
   by
     have h := C10_asset_size_cast.2.1 "a" "p" "q" "t" (2 ^ 31) (le_refl _)
     simpa using h⟩

/-- C9 (confirmed): when the cancellation flag is set before `scan_paths`
starts, the scan returns the `Cancelled` error with zero files processed
and no catalog entries created, for every input. -/
theorem C9_scan_cancelled_before_start :
    ∀ (pathsValid : Bool) (discovered : List (String × Nat))
      (mkAsset : String → Nat → Asset),
      scan_paths true pathsValid discovered mkAsset =
        (Except.error ScanError.Cancelled, 0) :=
  fun _ _ _ => rfl

theorem filterMap_pick_eq_map_filter (h : String)
    (rows : List (Nat × Option String)) :
    rows.filterMap (fun r => if r.2 = some h then some r.1 else none) =
      (rows.filter (fun r => r.2 = some h)).map Prod.fst := by
  induction rows with
  | nil => simp
  | cons r rs ih =>
    by_cases hr : r.2 = some h
    · simp [List.filterMap_cons, List.filter_cons, hr, ih]
    · simp [List.filterMap_cons, List.filter_cons, hr, ih]

/-- C8 (confirmed): every group produced by `find_exact_duplicates` is an
`Exact` group with similarity 1.0 and more than one member, holding exactly
the ids of the rows sharing one content hash (so rows with distinct hashes
never share a group, given distinct row ids); and every content hash held
by more than one row yields such a group. -/
theorem C8_exact_groups :
    (∀ (rows : List (Nat × Option String)) (g : DuplicateGroup),
        g ∈ find_exact_duplicates rows →
        g.duplicate_type = DuplicateType.Exact ∧
        g.similarity_score = some 1 ∧ g.files.length > 1 ∧
        ∃ h, g.files = rows.filterMap
          (fun r => if r.2 = some h then some r.1 else none)) ∧
    (∀ (rows : List (Nat × Option String)),
        (rows.map Prod.fst).Nodup →
        ∀ g ∈ find_exact_duplicates rows, ∀ a ∈ rows, ∀ b ∈ rows,
          a.1 ∈ g.files → b.1 ∈ g.files → a.2 = b.2) ∧
    (∀ (rows : List (Nat × Option String)) (h : String),
        (rows.filter (fun r => r.2 = some h)).length > 1 →
        ∃ g ∈ find_exact_duplicates rows,
          g.files = rows.filterMap
            (fun r => if r.2 = some h then some r.1 else none)) := by
  have hmem : ∀ (rows : List (Nat × Option String)) (g : DuplicateGroup),
      g ∈ find_exact_duplicates rows →
      ∃ h, (g.duplicate_type = DuplicateType.Exact ∧
        g.similarity_score = some 1 ∧ g.files.length > 1 ∧
        g.files = rows.filterMap
          (fun r => if r.2 = some h then some r.1 else none)) := by
    intro rows g hg
    rcases List.mem_filterMap.mp hg with ⟨h, _, hsome⟩
    by_cases hlen : (rows.filterMap
        (fun r => if r.2 = some h then some r.1 else none)).length > 1
    · rw [if_pos hlen] at hsome
      cases hsome
      exact ⟨h, rfl, rfl, hlen, rfl⟩
    · rw [if_neg hlen] at hsome
      cases hsome
  refine ⟨?_, ?_, ?_⟩
  · intro rows g hg
    rcases hmem rows g hg with ⟨h, h1, h2, h3, h4⟩
    exact ⟨h1, h2, h3, h, h4⟩
  · intro rows hnd g hg a ha b hb haf hbf
    rcases hmem rows g hg with ⟨h, _, _, _, h4⟩
    rw [h4, filterMap_pick_eq_map_filter] at haf hbf
    rcases List.mem_map.mp haf with ⟨ra, hra, hra1⟩
    rcases List.mem_map.mp hbf with ⟨rb, hrb, hrb1⟩
    have hra' := List.mem_filter.mp hra
    have hrb' := List.mem_filter.mp hrb
    have hinj := List.inj_on_of_nodup_map hnd
    have hara : ra = a := hinj hra'.1 ha hra1
    have harb : rb = b := hinj hrb'.1 hb hrb1
    have h2a : a.2 = some h := by rw [← hara]; simpa using hra'.2
    have h2b : b.2 = some h := by rw [← harb]; simpa using hrb'.2
    rw [h2a, h2b]
  · intro rows h hlen
    have hids : rows.filterMap
        (fun r => if r.2 = some h then some r.1 else none) =
        (rows.filter (fun r => r.2 = some h)).map Prod.fst :=
      filterMap_pick_eq_map_filter h rows
    have hlen2 : (rows.filterMap
        (fun r => if r.2 = some h then some r.1 else none)).length > 1 := by
      rw [hids, List.length_map]; exact hlen
    have hex : ∃ r ∈ rows, r.2 = some h := by
      rcases List.exists_mem_of_length_pos (by omega :
          0 < (rows.filter (fun r => r.2 = some h)).length) with ⟨r, hr⟩
      have := List.mem_filter.mp hr
      exact ⟨r, this.1, by simpa using this.2⟩
    have hhm : h ∈ (rows.filterMap Prod.snd).dedup := by
      rw [List.mem_dedup]
      rcases hex with ⟨r, hr, hr2⟩
      exact List.mem_filterMap.mpr ⟨r, hr, hr2⟩
    refine ⟨{ duplicate_type := DuplicateType.Exact,
              files := rows.filterMap
                (fun r => if r.2 = some h then some r.1 else none),
              similarity_score := some 1 }, ?_, rfl⟩
    apply List.mem_filterMap.mpr
    exact ⟨h, hhm, by rw [if_pos hlen2]⟩

/-- C8 witness: two rows with the same hash "h" produce a group with
exactly those two files. -/
theorem C8_exact_groups_witness :
    ((([(1, some "h"), (2, some "h")] :
        List (Nat × Option String)).filter
        (fun r => r.2 = some "h")).length > 1) ∧
    ∃ g ∈ find_exact_duplicates [(1, some "h"), (2, some "h")],
      g.files = [1, 2] :=
  ⟨by decide,
   by
     rcases C8_exact_groups.2.2 [(1, some "h"), (2, some "h")] "h"
       (by decide) with ⟨g, hg, hfiles⟩
     exact ⟨g, hg, by rw [hfiles]; rfl⟩⟩

theorem restore_stored_cons {α : Type}
    (parse : α → Option CullHistoryRecord) (l : α) (ls : List α) :
    restore_stored parse (l :: ls) =
      (match parse l with
       | some rec =>
           if rec.action = "moved" then (rec, l) :: restore_stored parse ls
           else restore_stored parse ls
       | none => restore_stored parse ls) := by
  simp only [restore_stored, List.filterMap_cons]
  cases parse l with
  | none => rfl
  | some rec =>
    by_cases ha : rec.action = "moved"
    · simp [ha]
    · simp [ha]

theorem restore_stored_map_snd_sublist {α : Type}
    (parse : α → Option CullHistoryRecord) (lines : List α) :
    ((restore_stored parse lines).map Prod.snd).Sublist lines := by
  induction lines with
  | nil => simp [restore_stored]
  | cons l ls ih =>
    rw [restore_stored_cons]
    cases hp : parse l with
    | none => exact ih.trans (List.sublist_cons_self l ls)
    | some rec =>
      show (List.map Prod.snd
          (if rec.action = "moved" then (rec, l) :: restore_stored parse ls
           else restore_stored parse ls)).Sublist (l :: ls)
      by_cases ha : rec.action = "moved"
      · rw [if_pos ha]
        simpa using List.Sublist.cons₂ l ih
      · rw [if_neg ha]
        exact ih.trans (List.sublist_cons_self l ls)

theorem restore_stored_mem {α : Type}
    (parse : α → Option CullHistoryRecord) (lines : List α) :
    ∀ pr ∈ restore_stored parse lines,
      parse pr.2 = some pr.1 ∧ pr.1.action = "moved" := by
  intro pr hpr
  rcases List.mem_filterMap.mp hpr with ⟨l, _, hsome⟩
  cases hp : parse l with
  | none => rw [hp] at hsome; cases hsome
  | some rec =>
    rw [hp] at hsome
    have hsome2 : (if rec.action = "moved" then some (rec, l) else none) =
        some pr := hsome
    by_cases ha : rec.action = "moved"
    · rw [if_pos ha] at hsome2
      cases hsome2
      exact ⟨hp, ha⟩
    · rw [if_neg ha] at hsome2
      cases hsome2

/-- C2 (corrected).  The claim that restore preserves every non-targeted
line fails: the rewrite keeps only the parsed "moved" records, silently
dropping "deleted" records and malformed lines (see the counterexample).
What holds: when restore succeeds, the rewritten log is a subsequence of
the original (relative order preserved, nothing reordered), every
surviving line is a "moved" record, and the survivors are exactly the
stored "moved" lines at non-targeted indices. -/
theorem C2_restore_rewrite {α : Type}
    (parse : α → Option CullHistoryRecord) (lines : List α)
    (record : Option Nat) (all : Bool) (out : List α)
    (h : restore_rewrite parse lines record all = some out) :
    out.Sublist lines ∧
    (∀ l ∈ out, parses_moved parse l = true) ∧
    (∃ targets,
      restore_targets (restore_stored parse lines).length record all =
        some targets ∧
      out = ((restore_stored parse lines).enum.filter
        (fun p => ¬ targets.contains p.1)).map (fun p => p.2.2)) := by
  unfold restore_rewrite at h
  by_cases h0 : (restore_stored parse lines).length = 0
  · rw [if_pos h0] at h; cases h
  · rw [if_neg h0] at h
    match ht : restore_targets (restore_stored parse lines).length record all with
    | none => rw [ht] at h; cases h
    | some targets =>
      rw [ht] at h
      have hout := (Option.some.inj h).symm
      refine ⟨?_, ?_, targets, rfl, hout⟩
      · rw [hout]
        have h1 : (((restore_stored parse lines).enum.filter
            (fun p => ¬ targets.contains p.1)).map Prod.snd).Sublist
            (restore_stored parse lines) := by
          have h2 := (List.filter_sublist
            (l := (restore_stored parse lines).enum)
            (p := fun p => ¬ targets.contains p.1)).map Prod.snd
          rwa [List.enum_map_snd] at h2
        have h3 := (h1.map Prod.snd).trans
          (restore_stored_map_snd_sublist parse lines)
        simpa [List.map_map, Function.comp] using h3
      · intro l hl
        rw [hout] at hl
        rcases List.mem_map.mp hl with ⟨p, hp, rfl⟩
        have hpe : p ∈ (restore_stored parse lines).enum :=
          List.mem_of_mem_filter hp
        have hps : p.2 ∈ restore_stored parse lines := by
          have := List.mem_map_of_mem Prod.snd hpe
          rwa [List.enum_map_snd] at this
        rcases restore_stored_mem parse lines p.2 hps with ⟨hparse, haction⟩
        simp [parses_moved, hparse, haction]

/-- C2 witness: on the three-line demo log, restoring stored record 0
keeps exactly the other "moved" line (line 2). -/
theorem C2_restore_rewrite_witness :
    ([2] : List Nat).Sublist [0, 1, 2] ∧
    (∀ l ∈ ([2] : List Nat), parses_moved demoParse l = true) ∧
    (∃ targets,
      restore_targets (restore_stored demoParse [0, 1, 2]).length
        (some 0) false = some targets ∧
      ([2] : List Nat) = ((restore_stored demoParse [0, 1, 2]).enum.filter
        (fun p => ¬ targets.contains p.1)).map (fun p => p.2.2)) :=
  C2_restore_rewrite demoParse [0, 1, 2] (some 0) false [2] (by decide)

/-- C2 counterexample: on the demo log (lines 0, 1, 2 where line 1 is a
"deleted" record), restoring stored record 0 rewrites the log to [2],
though the claim requires every non-targeted record — including the
untargeted "deleted" line 1 — to remain, i.e. [1, 2]. -/
theorem C2_restore_counterexample :
    restore_rewrite demoParse [0, 1, 2] (some 0) false = some [2] ∧
      ([2] : List Nat) ≠ [1, 2] := by decide

/-- C3 (code bug): culling with the non-default target directory
`d/moved` records the culled original path `d/a.jpg`, but restore searches
only the hard-coded `d/duplicates` directory for the file's base name, so
the source is absent, the file is skipped, and it is never relocated to
its recorded original path (the file system is returned unchanged and
nothing reappears at `d/a.jpg`), contradicting the claim that files moved
into a non-default target directory are still restored. -/
theorem C3_restore_misses_custom_target :
    (cull_move_group "t" (fun _ _ => true) ["d", "moved"]
        [(["d", "a.jpg"], 1), (["d", "b.jpg"], 2)]
        [["d", "b.jpg"], ["d", "a.jpg"]]).record =
      some ⟨"t", ["d", "b.jpg"], [["d", "a.jpg"]], "moved"⟩ ∧
    (cull_move_group "t" (fun _ _ => true) ["d", "moved"]
        [(["d", "a.jpg"], 1), (["d", "b.jpg"], 2)]
        [["d", "b.jpg"], ["d", "a.jpg"]]).fs =
      [(["d", "moved", "a.jpg"], 1), (["d", "b.jpg"], 2)] ∧
    restore_record_files ["d"]
        [(["d", "moved", "a.jpg"], 1), (["d", "b.jpg"], 2)]
        [["d", "a.jpg"]] =
      [(["d", "moved", "a.jpg"], 1), (["d", "b.jpg"], 2)] ∧
    fsLookup [(["d", "moved", "a.jpg"], 1), (["d", "b.jpg"], 2)]
      ["d", "a.jpg"] = none := by decide

theorem cull_move_dups_moved (renameOk : RPath → RPath → Bool)
    (target_dir : RPath) :
    ∀ (dups : List RPath) (fs : FS),
      ((cull_move_dups renameOk target_dir fs dups).2.2 = none →
        (cull_move_dups renameOk target_dir fs dups).2.1 = dups) ∧
      ((cull_move_dups renameOk target_dir fs dups).2.2 ≠ none →
        ∃ n, n < dups.length ∧
          (cull_move_dups renameOk target_dir fs dups).2.1 = dups.take n) := by
  intro dups
  induction dups with
  | nil =>
    intro fs
    exact ⟨fun _ => rfl, fun h => absurd rfl h⟩
  | cons dup rest ih =>
    intro fs
    rcases hd : get_unique_destination (fsExists fs) target_dir dup
      with _ | dest
    · simp only [cull_move_dups, hd]
      constructor
      · intro h; cases h
      · intro h2
        refine ⟨0, ?_, ?_⟩
        · simp
        · rfl
    · by_cases hok : renameOk dup dest = true
      · simp only [cull_move_dups, hd, hok, if_true]
        obtain ⟨ihs, ihf⟩ := ih (fsRename fs dup dest)
        refine ⟨fun h => ?_, fun h => ?_⟩
        · rw [ihs h]
        · rcases ihf h with ⟨n, hn, hm⟩
          refine ⟨n + 1, ?_, ?_⟩
          · simp only [List.length_cons]; omega
          · simp [hm]
      · simp only [cull_move_dups, hd, hok, if_false]
        constructor
        · intro h; cases h
        · intro h2
          refine ⟨0, ?_, ?_⟩
          · simp
          · rfl

theorem cull_move_group_success (ts : String)
    (renameOk : RPath → RPath → Bool) (target_dir : RPath) (fs : FS)
    (g : List RPath)
    (h : (cull_move_group ts renameOk target_dir fs g).err = none) :
    ∃ keeper dups, g = keeper :: dups ∧
      (cull_move_group ts renameOk target_dir fs g).record =
        some ⟨ts, keeper, dups, "moved"⟩ := by
  match g with
  | [] => exact absurd h (by simp [cull_move_group])
  | keeper :: dups =>
    refine ⟨keeper, dups, rfl, ?_⟩
    rcases he : (cull_move_dups renameOk target_dir fs dups).2.2 with _ | e
    · simp only [cull_move_group, he]
    · simp only [cull_move_group, he] at h
      cases h

theorem cull_delete_group_success (ts : String)
    (deleteOk : RPath → Bool) (fs : FS) (g : List RPath)
    (h : (cull_delete_group ts deleteOk fs g).err = none) :
    ∃ keeper dups, g = keeper :: dups ∧
      (cull_delete_group ts deleteOk fs g).record =
        some ⟨ts, keeper, dups, "deleted"⟩ := by
  match g with
  | [] => exact absurd h (by simp [cull_delete_group])
  | keeper :: dups =>
    refine ⟨keeper, dups, rfl, ?_⟩
    rcases he : (cull_delete_dups deleteOk fs dups).2.2 with _ | e
    · simp only [cull_delete_group, he]
    · simp only [cull_delete_group, he] at h
      cases h

/-- C5 (corrected).  The claim that the run continues past a failed
per-file operation is false: the `?` on `fs::rename` aborts the command at
the first failure (see the counterexample).  What holds: when every move
of a group succeeds, the group's record is written and lists exactly the
non-keeper files, all of which were moved; when a move fails, the run
stops there — only a proper prefix of the non-keeper files was moved, and
no history record is written for the group, so a file whose move failed
never appears in a history record. -/
theorem C5_cull_group_abort (ts : String) (renameOk : RPath → RPath → Bool)
    (target_dir : RPath) (fs : FS) (keeper : RPath) (dups : List RPath) :
    ((cull_move_group ts renameOk target_dir fs (keeper :: dups)).err =
        none →
      (cull_move_group ts renameOk target_dir fs (keeper :: dups)).record =
          some ⟨ts, keeper, dups, "moved"⟩ ∧
        (cull_move_group ts renameOk target_dir fs
          (keeper :: dups)).moved = dups) ∧
    ((cull_move_group ts renameOk target_dir fs (keeper :: dups)).err ≠
        none →
      (cull_move_group ts renameOk target_dir fs (keeper :: dups)).record =
          none ∧
        ∃ n, n < dups.length ∧
          (cull_move_group ts renameOk target_dir fs
            (keeper :: dups)).moved = dups.take n) := by
  rcases he : (cull_move_dups renameOk target_dir fs dups).2.2 with _ | e
  · simp only [cull_move_group, he]
    constructor
    · intro _
      exact ⟨trivial, (cull_move_dups_moved renameOk target_dir dups fs).1 he⟩
    · intro h
      exact absurd rfl h
  · simp only [cull_move_group, he]
    constructor
    · intro h
      cases h
    · intro _
      refine ⟨trivial, ?_⟩
      exact (cull_move_dups_moved renameOk target_dir dups fs).2
        (by rw [he]; simp)

/-- C5 counterexample: in a group with keeper `k.jpg` and duplicates
`b.jpg`, `c.jpg` where moving `b.jpg` fails, the run aborts: no record is
written, nothing is moved — in particular processing does not continue
with `c.jpg`, which stays at its original path — contradicting the claim
that the remaining files of the group are still processed and recorded. -/
theorem C5_cull_counterexample :
    (cull_move_group "t"
        (fun src _ => decide (src ≠ (["d", "b.jpg"] : RPath)))
        ["d", "duplicates"]
        [(["d", "k.jpg"], 1), (["d", "b.jpg"], 2), (["d", "c.jpg"], 3)]
        [["d", "k.jpg"], ["d", "b.jpg"], ["d", "c.jpg"]]).err ≠ none ∧
    (cull_move_group "t"
        (fun src _ => decide (src ≠ (["d", "b.jpg"] : RPath)))
        ["d", "duplicates"]
        [(["d", "k.jpg"], 1), (["d", "b.jpg"], 2), (["d", "c.jpg"], 3)]
        [["d", "k.jpg"], ["d", "b.jpg"], ["d", "c.jpg"]]).record = none ∧
    (cull_move_group "t"
        (fun src _ => decide (src ≠ (["d", "b.jpg"] : RPath)))
        ["d", "duplicates"]
        [(["d", "k.jpg"], 1), (["d", "b.jpg"], 2), (["d", "c.jpg"], 3)]
        [["d", "k.jpg"], ["d", "b.jpg"], ["d", "c.jpg"]]).moved = [] ∧
    fsLookup (cull_move_group "t"
        (fun src _ => decide (src ≠ (["d", "b.jpg"] : RPath)))
        ["d", "duplicates"]
        [(["d", "k.jpg"], 1), (["d", "b.jpg"], 2), (["d", "c.jpg"], 3)]
        [["d", "k.jpg"], ["d", "b.jpg"], ["d", "c.jpg"]]).fs
      ["d", "c.jpg"] = some 3 ∧
    fsLookup (cull_move_group "t"
        (fun src _ => decide (src ≠ (["d", "b.jpg"] : RPath)))
        ["d", "duplicates"]
        [(["d", "k.jpg"], 1), (["d", "b.jpg"], 2), (["d", "c.jpg"], 3)]
        [["d", "k.jpg"], ["d", "b.jpg"], ["d", "c.jpg"]]).fs
      ["d", "duplicates", "c.jpg"] = none := by decide

/-- C5 witness: a group whose single duplicate moves successfully gets
its record, listing exactly the moved file. -/
theorem C5_cull_group_abort_witness :
    (cull_move_group "t" (fun _ _ => true) ["d", "duplicates"]
        [(["d", "a.jpg"], 1), (["d", "b.jpg"], 2)]
        [["d", "b.jpg"], ["d", "a.jpg"]]).record =
        some ⟨"t", ["d", "b.jpg"], [["d", "a.jpg"]], "moved"⟩ ∧
      (cull_move_group "t" (fun _ _ => true) ["d", "duplicates"]
        [(["d", "a.jpg"], 1), (["d", "b.jpg"], 2)]
        [["d", "b.jpg"], ["d", "a.jpg"]]).moved = [["d", "a.jpg"]] :=
  (C5_cull_group_abort "t" (fun _ _ => true) ["d", "duplicates"]
    [(["d", "a.jpg"], 1), (["d", "b.jpg"], 2)]
    ["d", "b.jpg"] [["d", "a.jpg"]]).1 (by decide)

theorem handle_cull_move_records (ts : String)
    (renameOk : RPath → RPath → Bool) (target_dir : RPath) :
    ∀ (groups : List (List RPath)) (fs fs2 : FS)
      (recs : List CullHistoryRecord),
      handle_cull_move ts renameOk target_dir fs groups =
        (fs2, recs, none) →
      List.Forall₂ (fun (rec : CullHistoryRecord) (g : List RPath) =>
        ∃ keeper dups, g = keeper :: dups ∧
          rec = ⟨ts, keeper, dups, "moved"⟩) recs groups := by
  intro groups
  induction groups with
  | nil =>
    intro fs fs2 recs h
    simp only [handle_cull_move, Prod.mk.injEq] at h
    obtain ⟨-, h2, -⟩ := h
    rw [← h2]
    exact List.Forall₂.nil
  | cons g gs ih =>
    intro fs fs2 recs h
    rcases herr : (cull_move_group ts renameOk target_dir fs g).err
      with _ | e
    · obtain ⟨keeper, dups, hg, hrec⟩ :=
        cull_move_group_success ts renameOk target_dir fs g herr
      subst hg
      simp only [handle_cull_move, herr, Prod.mk.injEq] at h
      obtain ⟨-, h2, h3⟩ := h
      have hih := ih
        (cull_move_group ts renameOk target_dir fs (keeper :: dups)).fs
        (handle_cull_move ts renameOk target_dir
          (cull_move_group ts renameOk target_dir fs (keeper :: dups)).fs
          gs).1
        (handle_cull_move ts renameOk target_dir
          (cull_move_group ts renameOk target_dir fs (keeper :: dups)).fs
          gs).2.1
        (by rw [← h3])
      rw [← h2, hrec]
      simp only [Option.toList_some, List.singleton_append]
      exact List.Forall₂.cons ⟨keeper, dups, rfl, rfl⟩ hih
    · simp only [handle_cull_move, herr, Prod.mk.injEq] at h
      exact absurd h.2.2 (by simp)

theorem handle_cull_delete_records (ts : String) (deleteOk : RPath → Bool) :
    ∀ (groups : List (List RPath)) (fs fs2 : FS)
      (recs : List CullHistoryRecord),
      handle_cull_delete ts deleteOk fs groups = (fs2, recs, none) →
      List.Forall₂ (fun (rec : CullHistoryRecord) (g : List RPath) =>
        ∃ keeper dups, g = keeper :: dups ∧
          rec = ⟨ts, keeper, dups, "deleted"⟩) recs groups := by
  intro groups
  induction groups with
  | nil =>
    intro fs fs2 recs h
    simp only [handle_cull_delete, Prod.mk.injEq] at h
    obtain ⟨-, h2, -⟩ := h
    rw [← h2]
    exact List.Forall₂.nil
  | cons g gs ih =>
    intro fs fs2 recs h
    rcases herr : (cull_delete_group ts deleteOk fs g).err with _ | e
    · obtain ⟨keeper, dups, hg, hrec⟩ :=
        cull_delete_group_success ts deleteOk fs g herr
      subst hg
      simp only [handle_cull_delete, herr, Prod.mk.injEq] at h
      obtain ⟨-, h2, h3⟩ := h
      have hih := ih (cull_delete_group ts deleteOk fs (keeper :: dups)).fs
        (handle_cull_delete ts deleteOk
          (cull_delete_group ts deleteOk fs (keeper :: dups)).fs gs).1
        (handle_cull_delete ts deleteOk
          (cull_delete_group ts deleteOk fs (keeper :: dups)).fs gs).2.1
        (by rw [← h3])
      rw [← h2, hrec]
      simp only [Option.toList_some, List.singleton_append]
      exact List.Forall₂.cons ⟨keeper, dups, rfl, rfl⟩ hih
    · simp only [handle_cull_delete, herr, Prod.mk.injEq] at h
      exact absurd h.2.2 (by simp)

/-- C4 (confirmed): a dry run appends no history record (and changes
nothing); a Move or Delete run that completes appends exactly one record
per processed group — the record lists the group's retained (first) path
and every culled (non-keeper) path, with the matching action. -/
theorem C4_history_records :
    (∀ (ts : String) (renameOk : RPath → RPath → Bool)
        (target_dir : RPath) (fs : FS) (groups : List (List RPath)),
        handle_cull_cmd true ts renameOk target_dir fs groups =
          (fs, [], none)) ∧
    (∀ (ts : String) (renameOk : RPath → RPath → Bool)
        (target_dir : RPath) (fs fs2 : FS) (groups : List (List RPath))
        (recs : List CullHistoryRecord),
        handle_cull_move ts renameOk target_dir fs groups =
          (fs2, recs, none) →
        List.Forall₂ (fun (rec : CullHistoryRecord) (g : List RPath) =>
          ∃ keeper dups, g = keeper :: dups ∧
            rec = ⟨ts, keeper, dups, "moved"⟩) recs groups) ∧
    (∀ (ts : String) (deleteOk : RPath → Bool) (fs fs2 : FS)
        (groups : List (List RPath)) (recs : List CullHistoryRecord),
        handle_cull_delete ts deleteOk fs groups = (fs2, recs, none) →
        List.Forall₂ (fun (rec : CullHistoryRecord) (g : List RPath) =>
          ∃ keeper dups, g = keeper :: dups ∧
            rec = ⟨ts, keeper, dups, "deleted"⟩) recs groups) :=
  ⟨fun _ _ _ _ _ => rfl,
   fun ts ro td fs fs2 groups recs h =>
     handle_cull_move_records ts ro td groups fs fs2 recs h,
   fun ts dok fs fs2 groups recs h =>
     handle_cull_delete_records ts dok groups fs fs2 recs h⟩

/-- C4 witness: a one-group move run writes exactly one record pairing
the keeper with the single culled path. -/
theorem C4_history_records_witness :
    List.Forall₂ (fun (rec : CullHistoryRecord) (g : List RPath) =>
      ∃ keeper dups, g = keeper :: dups ∧
        rec = ⟨"t", keeper, dups, "moved"⟩)
      [⟨"t", ["d", "b.jpg"], [["d", "a.jpg"]], "moved"⟩]
      [[["d", "b.jpg"], ["d", "a.jpg"]]] :=
  C4_history_records.2.1 "t" (fun _ _ => true) ["d", "duplicates"]
    [(["d", "a.jpg"], 1), (["d", "b.jpg"], 2)]
    [(["d", "duplicates", "a.jpg"], 1), (["d", "b.jpg"], 2)]
    [[["d", "b.jpg"], ["d", "a.jpg"]]]
    [⟨"t", ["d", "b.jpg"], [["d", "a.jpg"]], "moved"⟩] (by decide)

end Culling
